import Mathlib

/-!
Verification development for the stress-go load generator.

The definitions below are a shallow embedding of the program's pure logic:

* the size-string parser of src/main.go (parseSize and its helpers),
* the dynamic memory controller of src/pkg/memory/memory.go
  (generateDynamicLoad, calculatePercentageSize),
* the dynamic storage controller of src/pkg/storage/storage.go
  (performDynamicStorageOperations, calculatePercentageSize, writeFile),
* the static storage allocator (performStorageOperations),
* a small file-system trace model for the cleanup behaviour of
  storage.GenerateLoad.

Numeric conventions: Go's int64 values are modelled as unbounded ℤ.
Go float64 decimal values are modelled exactly as a pair (mantissa : ℤ,
scale : ℕ) denoting mantissa / 10 ^ scale; the Go conversion int64(x)
(truncation toward zero) is Int.tdiv of the mantissa by 10 ^ scale.
-/

/-- Character class used by the model of strings.TrimSpace (ASCII whitespace). -/
def isGoSpace (c : Char) : Bool :=
  c = ' ' || c = '\t' || c = '\n' || c = '\x0b' || c = '\x0c' || c = '\r'

/-- Character class of the regexp escape for whitespace used in parseSize's
pattern (the characters tab, newline, form feed, carriage return, space). -/
def isRegexSpace (c : Char) : Bool :=
  c = '\t' || c = '\n' || c = '\x0c' || c = '\r' || c = ' '

/-- Model of strings.TrimSpace on the character list of the input. -/
def trimSpace (cs : List Char) : List Char :=
  ((cs.dropWhile isGoSpace).reverse.dropWhile isGoSpace).reverse

/-- Numeric value of a decimal digit character. -/
def digitVal (c : Char) : ℕ := c.toNat - 48

/-- The decimal digit character for a value below ten. -/
def digitChar (d : ℕ) : Char := Char.ofNat (48 + d)

/-- Take the longest run of leading decimal digits, returning their values
and the rest of the input. -/
def takeDigits : List Char → List ℕ × List Char
  | [] => ([], [])
  | c :: rest =>
    if c.isDigit then
      let p := takeDigits rest
      (digitVal c :: p.1, p.2)
    else ([], c :: rest)

/-- Value of a big-endian list of decimal digits. -/
def natOfDigits (ds : List ℕ) : ℕ := ds.foldl (fun a d => 10 * a + d) 0

/-- Error cases of parseSize in src/main.go: the two invalid-percentage
returns, the pattern-mismatch return, and the default branch of the unit
switch. -/
inductive ParseErr where
  | invalidPercentage
  | percentOutOfRange
  | invalidSizeFormat
  | unsupportedUnit
deriving DecidableEq, Repr

/-- Result of parseSize: an int64 (negative values encode percentages) or
an error. -/
inductive ParseResult where
  | ok (value : ℤ)
  | error (e : ParseErr)
deriving DecidableEq, Repr

/-- Attach a decimal exponent to an exact decimal (mantissa, scale) pair. -/
def applyExpPart (mant : ℤ) (scale : ℕ) (e : ℤ) : ℤ × ℕ :=
  if 0 ≤ e then (mant * 10 ^ e.toNat, scale) else (mant, scale + e.natAbs)

/-- Digits of a decimal exponent, which must exhaust the input. -/
def parseExpDigits (cs : List Char) (sgn : ℤ) : Option ℤ :=
  let p := takeDigits cs
  if p.1.isEmpty then none
  else if p.2.isEmpty then some (sgn * (natOfDigits p.1 : ℤ)) else none

/-- Optional exponent part of a float accepted by strconv.ParseFloat. -/
def parseExpPart (cs : List Char) : Option ℤ :=
  match cs with
  | [] => some 0
  | c :: rest =>
    if c = 'e' ∨ c = 'E' then
      match rest with
      | [] => none
      | d :: rest2 =>
        if d = '+' then parseExpDigits rest2 1
        else if d = '-' then parseExpDigits rest2 (-1)
        else parseExpDigits rest 1
    else none

/-- Exact decimal made of an integer digit part and a fraction digit part. -/
def decOfParts (ipart fpart : List ℕ) : ℤ × ℕ :=
  ((natOfDigits ipart : ℤ) * 10 ^ fpart.length + (natOfDigits fpart : ℤ),
    fpart.length)

/-- Mantissa/exponent body of strconv.ParseFloat after the sign. -/
def parseGoFloatUnsigned (sgn : ℤ) (cs : List Char) : Option (ℤ × ℕ) :=
  let p := takeDigits cs
  match p.2 with
  | c :: r2 =>
    if c = '.' then
      let q := takeDigits r2
      if p.1.isEmpty ∧ q.1.isEmpty then none
      else
        (parseExpPart q.2).map fun e =>
          applyExpPart (sgn * (decOfParts p.1 q.1).1) (decOfParts p.1 q.1).2 e
    else
      if p.1.isEmpty then none
      else (parseExpPart p.2).map fun e =>
        applyExpPart (sgn * (natOfDigits p.1 : ℤ)) 0 e
  | [] =>
    if p.1.isEmpty then none
    else some (sgn * (natOfDigits p.1 : ℤ), 0)

/-- Model of strconv.ParseFloat on decimal inputs, returning the exact
decimal value as a (mantissa, scale) pair.  Hexadecimal floats, digit
underscores and the Inf/NaN tokens of the Go parser are outside the model
and treated as unparseable. -/
def parseGoFloat (cs : List Char) : Option (ℤ × ℕ) :=
  match cs with
  | [] => none
  | c :: rest =>
    if c = '+' then parseGoFloatUnsigned 1 rest
    else if c = '-' then parseGoFloatUnsigned (-1) rest
    else parseGoFloatUnsigned 1 cs

/-- Percentage branch of parseSize: parse the remainder before the percent
sign as a float, range-check it, and encode it as a negated int64. -/
def percBranch (r : List Char) : ParseResult :=
  match parseGoFloat r with
  | none => .error .invalidPercentage
  | some p =>
    if p.1 < 0 ∨ 100 * (10 : ℤ) ^ p.2 < p.1 then .error .percentOutOfRange
    else .ok (Int.tdiv (-p.1) ((10 : ℤ) ^ p.2))

/-- The trailing unit group of parseSize's pattern: an optional letter from
K, M, G, T followed by an optional B, which must end the input. -/
def matchUnit (cs : List Char) : Option (List Char) :=
  match cs with
  | [] => some []
  | [c] =>
    if c = 'B' ∨ c = 'K' ∨ c = 'M' ∨ c = 'G' ∨ c = 'T' then some [c] else none
  | [c, b] =>
    if (c = 'K' ∨ c = 'M' ∨ c = 'G' ∨ c = 'T') ∧ b = 'B' then some [c, b]
    else none
  | _ => none

/-- After the number, skip regexp whitespace and match the unit group. -/
def matchUnitPart (ds fs : List ℕ) (r : List Char) :
    Option ((List ℕ × List ℕ) × List Char) :=
  (matchUnit (r.dropWhile isRegexSpace)).map fun u => ((ds, fs), u)

/-- Model of matching parseSize's absolute-size pattern: digits, an optional
fraction, optional whitespace, then the unit group, anchored at both ends.
Returns the digit lists of the number and the matched unit token. -/
def matchAbs (cs : List Char) : Option ((List ℕ × List ℕ) × List Char) :=
  let p := takeDigits cs
  if p.1.isEmpty then none
  else
    match p.2 with
    | c :: r2 =>
      if c = '.' then
        let q := takeDigits r2
        if q.1.isEmpty then none else matchUnitPart p.1 q.1 q.2
      else matchUnitPart p.1 [] p.2
    | [] => matchUnitPart p.1 [] []

/-- The unit switch of parseSize; the default branch yields none, which
parseSizeChars maps to the unsupported-unit error. -/
def unitMultiplier (u : List Char) : Option ℤ :=
  if u = [] ∨ u = ['B'] then some 1
  else if u = ['K', 'B'] ∨ u = ['K'] then some 1024
  else if u = ['M', 'B'] ∨ u = ['M'] then some (1024 * 1024)
  else if u = ['G', 'B'] ∨ u = ['G'] then some (1024 * 1024 * 1024)
  else if u = ['T', 'B'] ∨ u = ['T'] then some (1024 * 1024 * 1024 * 1024)
  else none

/-- Exact decimal value of the matched number of an absolute size. -/
def absNumberDec (ds fs : List ℕ) : ℤ × ℕ := decOfParts ds fs

/-- The unit tokens of parseSize's grammar with their binary multipliers. -/
def unitTable : List (List Char × ℤ) :=
  [([], 1), (['B'], 1),
    (['K'], 1024), (['K', 'B'], 1024),
    (['M'], 1024 * 1024), (['M', 'B'], 1024 * 1024),
    (['G'], 1024 * 1024 * 1024), (['G', 'B'], 1024 * 1024 * 1024),
    (['T'], 1024 * 1024 * 1024 * 1024),
    (['T', 'B'], 1024 * 1024 * 1024 * 1024)]

/-- Model of parseSize from src/main.go on a character list: trim, take the
percentage branch when the input ends in a percent sign, otherwise match
the absolute-size pattern against the upper-cased input and apply the unit
multiplier, truncating the product to an int64. -/
def parseSizeChars (cs : List Char) : ParseResult :=
  let t := trimSpace cs
  if t.getLast? = some '%' then percBranch t.dropLast
  else
    match matchAbs (t.map Char.toUpper) with
    | none => .error .invalidSizeFormat
    | some r =>
      match unitMultiplier r.2 with
      | none => .error .unsupportedUnit
      | some m =>
        .ok (Int.tdiv ((absNumberDec r.1.1 r.1.2).1 * m)
              ((10 : ℤ) ^ (absNumberDec r.1.1 r.1.2).2))

/-- parseSize on a Lean string. -/
def parseSize (s : String) : ParseResult := parseSizeChars s.data

/-- State of the dynamic memory controller: the held buffer sizes in
allocation order, and the tracked totalAllocated counter. -/
structure MemState where
  buffers : List ℤ
  total : ℤ
deriving DecidableEq, Repr

/-- calculatePercentageSize of src/pkg/memory/memory.go.  The free-memory
figure is a hardcoded 8 GiB total minus the Go runtime's MemStats.Sys value
(here the sysBytes argument); both int64 conversions are modelled as exact
truncation (0.95 is treated as the exact ratio 95/100).  The percent
argument is a whole number because the caller receives it as the negated
int64 produced by parseSize.  Returns none where the Go function returns an
error. -/
def memCalculatePercentageSize (sysBytes percent : ℤ) : Option ℤ :=
  let totalSystemMemory : ℤ := 8 * 1024 * 1024 * 1024
  let freeMemory := totalSystemMemory - sysBytes
  if freeMemory ≤ 0 then none
  else
    let targetSize := Int.tdiv (freeMemory * percent) 100
    let safeTarget := Int.tdiv (targetSize * 95) 100
    if safeTarget ≤ 0 then none else some safeTarget

/-- Initial allocation of generateDynamicLoad given the computed initial
target size. -/
def memInit (targetSize : ℤ) : MemState :=
  if 0 < targetSize then { buffers := [targetSize], total := targetSize }
  else { buffers := [], total := 0 }

/-- The release loop shared by both dynamic controllers, acting on the
reversed segment list: while more than one element remains and the released
amount is below the excess, drop the most recent segment and add its size. -/
def releaseLoop {α : Type} (sz : α → ℤ) (excess : ℤ) :
    List α → ℤ → List α × ℤ
  | [], released => ([], released)
  | [b], released => ([b], released)
  | b :: c :: rest, released =>
    if released < excess then releaseLoop sz excess (c :: rest) (released + sz b)
    else (b :: c :: rest, released)

/-- Growth branch of generateDynamicLoad's tick: allocate one additional
buffer of the difference (allocation is assumed to succeed; a failed make
in Go panics the process). -/
def memGrow (s : MemState) (newTargetSize : ℤ) : MemState :=
  if 0 < newTargetSize - s.total then
    { buffers := s.buffers ++ [newTargetSize - s.total],
      total := s.total + (newTargetSize - s.total) }
  else s

/-- Shrink branch of generateDynamicLoad's tick: release buffers from the
end until the released amount reaches the excess or one buffer remains. -/
def memShrink (s : MemState) (newTargetSize : ℤ) : MemState :=
  { buffers := (releaseLoop id (s.total - newTargetSize) s.buffers.reverse 0).1.reverse,
    total := s.total - (releaseLoop id (s.total - newTargetSize) s.buffers.reverse 0).2 }

/-- One steady-state tick of generateDynamicLoad.  The probe argument is
the result of calculatePercentageSize for this cycle (none models the error
return, on which the loop logs and continues). -/
def memTick (s : MemState) (probe : Option ℤ) : MemState :=
  match probe with
  | none => s
  | some newTargetSize =>
    if s.total < newTargetSize then memGrow s newTargetSize
    else if newTargetSize < s.total ∧ 1 < s.buffers.length then
      memShrink s newTargetSize
    else s

/-- The controller state after the initial allocation and a sequence of
steady-state ticks. -/
def memRun (targetSize0 : ℤ) (probes : List (Option ℤ)) : MemState :=
  probes.foldl memTick (memInit targetSize0)

/-- Entry of generateDynamicLoad: if the initial calculatePercentageSize
call fails the controller logs and returns early with no state. -/
def memDynInit (sysBytes percent : ℤ) : Option MemState :=
  (memCalculatePercentageSize sysBytes percent).map memInit

/-- The ctx.Done branch of generateDynamicLoad: every buffer reference is
dropped before the controller returns. -/
def memTeardown (s : MemState) : MemState :=
  { buffers := [], total := s.total }

/-- Buffers held at the moment the memory controller returns, for any exit
path: early exit on a failed initial computation, or teardown after any
number of ticks. -/
def memControllerFinal (initProbe : Option ℤ) (probes : List (Option ℤ)) :
    MemState :=
  match initProbe with
  | none => { buffers := [], total := 0 }
  | some t0 => memTeardown (memRun t0 probes)

/-- State of the dynamic storage controller: the held files as
(name counter, on-disk size) pairs in creation order, the tracked
totalWritten counter, and the file name counter. -/
structure StState where
  files : List (ℕ × ℤ)
  written : ℤ
  fileCounter : ℕ
deriving DecidableEq, Repr

/-- Sum of the on-disk sizes of the held files. -/
def sumSizes (files : List (ℕ × ℤ)) : ℤ := (files.map Prod.snd).sum

/-- calculatePercentageSize of src/pkg/storage/storage.go, given the live
free-space figure returned by getDiskFreeSpace; both int64 conversions are
modelled as exact truncation (0.90 is treated as the exact ratio 90/100). -/
def storCalculatePercentageSize (freeSpace percent : ℤ) : Option ℤ :=
  let targetSize := Int.tdiv (freeSpace * percent) 100
  let safeTarget := Int.tdiv (targetSize * 90) 100
  if safeTarget ≤ 0 then none else some safeTarget

/-- Initial file creation of performDynamicStorageOperations given the
computed initial target size. -/
def stInit (targetSize : ℤ) : StState :=
  if 0 < targetSize then
    { files := [(0, targetSize)], written := targetSize, fileCounter := 1 }
  else { files := [], written := 0, fileCounter := 0 }

/-- Append 1024 bytes to the file at the given position (appendToFile of
the dynamic I/O step). -/
def bumpAt : List (ℕ × ℤ) → ℕ → List (ℕ × ℤ)
  | [], _ => []
  | f :: rest, 0 => (f.1, f.2 + 1024) :: rest
  | f :: rest, i + 1 => f :: bumpAt rest i

/-- The per-tick I/O step of performDynamicStorageOperations: when files
are held, read one file chosen by the current time modulo the file count
and append 1024 random bytes to it; the on-disk size grows but
totalWritten is not updated. -/
def stLiveness (s : StState) (now : ℕ) : StState :=
  if s.files.isEmpty then s
  else { s with files := bumpAt s.files (now % s.files.length) }

/-- Growth branch of performDynamicStorageOperations' tick: write one
additional file of the difference; writeOk models success of the writeFile
call (on failure the cycle is skipped, including the I/O step). -/
def stGrow (s : StState) (newTargetSize : ℤ) (writeOk : Bool) (now : ℕ) :
    StState :=
  if 0 < newTargetSize - s.written then
    if writeOk then
      stLiveness
        { files := s.files ++ [(s.fileCounter, newTargetSize - s.written)],
          written := s.written + (newTargetSize - s.written),
          fileCounter := s.fileCounter + 1 } now
    else s
  else stLiveness s now

/-- Shrink branch of performDynamicStorageOperations' tick: delete files
from the end until the deleted amount reaches the excess or one file
remains; the deleted amount is the on-disk size from os.Stat, and the
os.Stat and os.Remove calls are modelled as succeeding. -/
def stShrink (s : StState) (newTargetSize : ℤ) : StState :=
  { files := (releaseLoop Prod.snd (s.written - newTargetSize) s.files.reverse 0).1.reverse,
    written := s.written - (releaseLoop Prod.snd (s.written - newTargetSize) s.files.reverse 0).2,
    fileCounter := s.fileCounter }

/-- One steady-state tick of performDynamicStorageOperations.  The probe
argument is the result of calculatePercentageSize (none models its error
return, on which the loop logs and continues). -/
def stTick (s : StState) (probe : Option ℤ) (writeOk : Bool) (now : ℕ) :
    StState :=
  match probe with
  | none => s
  | some newTargetSize =>
    if s.written < newTargetSize then stGrow s newTargetSize writeOk now
    else if newTargetSize < s.written ∧ 1 < s.files.length then
      stLiveness (stShrink s newTargetSize) now
    else stLiveness s now

/-- Inputs of one storage tick: the probe result, the success of a growth
write, and the wall-clock second used to pick the liveness file. -/
structure StIn where
  probe : Option ℤ
  writeOk : Bool
  now : ℕ
deriving DecidableEq, Repr

/-- The storage controller state after the initial file and a sequence of
steady-state ticks. -/
def stRun (targetSize0 : ℤ) (ins : List StIn) : StState :=
  ins.foldl (fun s i => stTick s i.probe i.writeOk i.now) (stInit targetSize0)

/-- Entry of performDynamicStorageOperations: if the initial
calculatePercentageSize call fails the controller returns the error
immediately, holding no files. -/
def stDynInit (freeSpace percent : ℤ) : Option StState :=
  (storCalculatePercentageSize freeSpace percent).map stInit

/-- The chunked write loop of writeFile: starting from written bytes,
write 64 KiB chunks, trimming the final chunk, until the requested size is
reached; returns the total bytes written. -/
def writeLoop (size written : ℕ) : ℕ :=
  if written < size then
    writeLoop size
      (written + (if size < written + 65536 then size - written else 65536))
  else written
termination_by size - written
decreasing_by
  simp_wf
  split <;> omega

/-- File sizes created by the write phase of performStorageOperations for a
fixed (non-negative) requested total: ten files, each of the requested
total divided by ten, raised to the 1 MiB chunk size when below it. -/
def performStorageOperationsFileSizes (totalSize : ℕ) : List ℕ :=
  let chunkSize := 1024 * 1024
  let numFiles := 10
  let fileSize := totalSize / numFiles
  let fileSize2 := if fileSize < chunkSize then chunkSize else fileSize
  List.replicate numFiles fileSize2

/-- Operations a storage workload may perform inside its temporary
directory, plus the removal of the whole directory. -/
inductive FsOp where
  | create (id : ℕ) (size : ℤ)
  | removeOne (id : ℕ)
  | appendBytes (id : ℕ) (n : ℤ)
  | removeAllDir
deriving DecidableEq, Repr

/-- Effect of one operation on the contents of the temporary directory. -/
def applyFsOp (files : List (ℕ × ℤ)) : FsOp → List (ℕ × ℤ)
  | .create i sz => files ++ [(i, sz)]
  | .removeOne i => files.filter (fun f => f.1 != i)
  | .appendBytes i n => files.map (fun f => if f.1 = i then (f.1, f.2 + n) else f)
  | .removeAllDir => []

/-- Contents of the temporary directory when storage.GenerateLoad returns:
none when the directory could not be created (the function returns before
any work), otherwise the result of the body's operations followed by the
deferred os.RemoveAll, which runs on every exit path of the body. -/
def storageGenerateLoadDir (mkdirOk : Bool) (bodyOps : List FsOp) :
    Option (List (ℕ × ℤ)) :=
  if mkdirOk then some ((bodyOps ++ [FsOp.removeAllDir]).foldl applyFsOp [])
  else none

/-- The documented state invariant of the dynamic memory controller: the
tracked total equals the sum of the held buffer sizes, and every held
buffer is non-empty. -/
def memInvariant (s : MemState) : Prop :=
  s.total = s.buffers.sum ∧ ∀ b ∈ s.buffers, 0 < b

/-- The state invariant the dynamic storage controller actually maintains:
the tracked totalWritten is at most the sum of the on-disk sizes (liveness
appends grow files without being tracked), every held file is non-empty,
the name counter is zero until the first file exists, and the first held
file, when one exists, is file number zero. -/
def stInvariant (s : StState) : Prop :=
  s.written ≤ sumSizes s.files ∧ (∀ f ∈ s.files, 0 < f.2) ∧
  (s.files = [] → s.fileCounter = 0) ∧
  (s.files ≠ [] → (s.files.map Prod.fst).head? = some 0)

/-! ### Helper lemmas about the release loop -/

lemma releaseLoop_sum {α : Type} (sz : α → ℤ) (e : ℤ) :
    ∀ (l : List α) (rel : ℤ),
      (releaseLoop sz e l rel).2 + (((releaseLoop sz e l rel).1).map sz).sum
        = rel + (l.map sz).sum := by
  intro l
  induction l with
  | nil => intro rel; simp [releaseLoop]
  | cons b tl ih =>
    intro rel
    cases tl with
    | nil => simp [releaseLoop]
    | cons c rest =>
      by_cases h : rel < e
      · simp only [releaseLoop, if_pos h]
        have h2 := ih (rel + sz b)
        simp only [List.map_cons, List.sum_cons] at h2 ⊢
        omega
      · simp only [releaseLoop, if_neg h]

lemma releaseLoop_decomp {α : Type} (sz : α → ℤ) (e : ℤ) :
    ∀ (l : List α) (rel : ℤ), ∃ pre, l = pre ++ (releaseLoop sz e l rel).1 := by
  intro l
  induction l with
  | nil => intro rel; exact ⟨[], by simp [releaseLoop]⟩
  | cons b tl ih =>
    intro rel
    cases tl with
    | nil => exact ⟨[], by simp [releaseLoop]⟩
    | cons c rest =>
      by_cases h : rel < e
      · obtain ⟨pre, hp⟩ := ih (rel + sz b)
        refine ⟨b :: pre, ?_⟩
        simp only [releaseLoop, if_pos h, List.cons_append]
        exact congrArg (List.cons b) hp
      · exact ⟨[], by simp [releaseLoop, if_neg h]⟩

lemma releaseLoop_ne_nil {α : Type} (sz : α → ℤ) (e : ℤ) :
    ∀ (l : List α) (rel : ℤ), l ≠ [] → (releaseLoop sz e l rel).1 ≠ [] := by
  intro l
  induction l with
  | nil => intro rel hl; exact absurd rfl hl
  | cons b tl ih =>
    intro rel _
    cases tl with
    | nil => simp [releaseLoop]
    | cons c rest =>
      by_cases h : rel < e
      · simp only [releaseLoop, if_pos h]
        exact ih (rel + sz b) (by simp)
      · simp [releaseLoop, if_neg h]

lemma releaseLoop_exit {α : Type} (sz : α → ℤ) (e : ℤ) :
    ∀ (l : List α) (rel : ℤ),
      e ≤ (releaseLoop sz e l rel).2 ∨ (releaseLoop sz e l rel).1.length ≤ 1 := by
  intro l
  induction l with
  | nil => intro rel; right; simp [releaseLoop]
  | cons b tl ih =>
    intro rel
    cases tl with
    | nil => right; simp [releaseLoop]
    | cons c rest =>
      by_cases h : rel < e
      · simp only [releaseLoop, if_pos h]
        exact ih (rel + sz b)
      · left
        simp only [releaseLoop, if_neg h]
        omega

lemma releaseLoop_length_le {α : Type} (sz : α → ℤ) (e : ℤ) (l : List α)
    (rel : ℤ) : (releaseLoop sz e l rel).1.length ≤ l.length := by
  obtain ⟨pre, hp⟩ := releaseLoop_decomp sz e l rel
  have h2 := congrArg List.length hp
  simp only [List.length_append] at h2
  omega

lemma releaseLoop_progress {α : Type} (sz : α → ℤ) (e : ℤ) (l : List α)
    (rel : ℤ) (hl : 1 < l.length) (hr : rel < e) :
    (releaseLoop sz e l rel).1.length < l.length := by
  cases l with
  | nil => simp at hl
  | cons b tl =>
    cases tl with
    | nil => simp at hl
    | cons c rest =>
      simp only [releaseLoop, if_pos hr]
      have := releaseLoop_length_le sz e (c :: rest) (rel + sz b)
      simp only [List.length_cons] at this ⊢
      omega

lemma releaseLoop_subset {α : Type} (sz : α → ℤ) (e : ℤ) (l : List α)
    (rel : ℤ) : ∀ x ∈ (releaseLoop sz e l rel).1, x ∈ l := by
  obtain ⟨pre, hp⟩ := releaseLoop_decomp sz e l rel
  intro x hx
  rw [hp]
  exact List.mem_append_right pre hx

/-! ### Helper lemmas about the controller steps -/

lemma head?_append_left {α : Type} (l1 l2 : List α) (h : l1 ≠ []) :
    (l1 ++ l2).head? = l1.head? := by
  cases l1 with
  | nil => exact absurd rfl h
  | cons a as => rfl

lemma memTick_none (s : MemState) : memTick s none = s := rfl

lemma memTick_grow (s : MemState) (t : ℤ) (h : s.total < t) :
    memTick s (some t) = memGrow s t := by
  simp only [memTick]
  rw [if_pos h]

lemma memTick_shrinkEq (s : MemState) (t : ℤ) (h1 : t < s.total)
    (h2 : 1 < s.buffers.length) : memTick s (some t) = memShrink s t := by
  simp only [memTick]
  rw [if_neg (by omega), if_pos ⟨h1, h2⟩]

lemma memTick_idle (s : MemState) (t : ℤ) (h1 : ¬s.total < t)
    (h2 : ¬(t < s.total ∧ 1 < s.buffers.length)) : memTick s (some t) = s := by
  simp only [memTick]
  rw [if_neg h1, if_neg h2]

lemma memGrow_eq (s : MemState) (t : ℤ) (h : s.total < t) :
    memGrow s t = { buffers := s.buffers ++ [t - s.total], total := t } := by
  simp only [memGrow]
  rw [if_pos (by omega : (0 : ℤ) < t - s.total)]
  have ht : s.total + (t - s.total) = t := by ring
  rw [ht]

lemma memShrink_spec (s : MemState) (t : ℤ) (h1 : t < s.total)
    (h2 : 1 < s.buffers.length) :
    (memShrink s t).buffers.length < s.buffers.length ∧
    (memShrink s t).buffers ≠ [] ∧
    (memShrink s t).buffers.head? = s.buffers.head? ∧
    (∃ d, d ≠ [] ∧ s.buffers = (memShrink s t).buffers ++ d) ∧
    ((memShrink s t).total ≤ t ∨ (memShrink s t).buffers.length = 1) := by
  have hLlen : s.buffers.reverse.length = s.buffers.length := by simp
  have hLne : s.buffers.reverse ≠ [] := by
    have hpos : 0 < s.buffers.reverse.length := by
      simp only [List.length_reverse]
      omega
    exact List.length_pos.mp hpos
  obtain ⟨pre, hp⟩ := releaseLoop_decomp id (s.total - t) s.buffers.reverse 0
  have hrem_lt :
      (releaseLoop id (s.total - t) s.buffers.reverse 0).1.length
        < s.buffers.reverse.length := by
    apply releaseLoop_progress
    · simpa using h2
    · omega
  have hrem_ne : (releaseLoop id (s.total - t) s.buffers.reverse 0).1 ≠ [] :=
    releaseLoop_ne_nil id (s.total - t) s.buffers.reverse 0 hLne
  have hbuf : s.buffers
      = (releaseLoop id (s.total - t) s.buffers.reverse 0).1.reverse
        ++ pre.reverse := by
    have hrr := congrArg List.reverse hp
    simpa [List.reverse_append] using hrr
  have hpre_ne : pre ≠ [] := by
    intro h0
    rw [h0, List.nil_append] at hp
    have := congrArg List.length hp
    omega
  have hbl : (memShrink s t).buffers
      = (releaseLoop id (s.total - t) s.buffers.reverse 0).1.reverse := rfl
  have hbne : (memShrink s t).buffers ≠ [] := by
    rw [hbl]
    simpa using hrem_ne
  refine ⟨?_, hbne, ?_, ⟨pre.reverse, ?_, ?_⟩, ?_⟩
  · rw [hbl]
    simpa using hrem_lt
  · rw [hbl]
    conv_rhs => rw [hbuf]
    rw [head?_append_left _ _ (by simpa using hrem_ne)]
  · simpa using hpre_ne
  · rw [hbl]
    exact hbuf
  · rcases releaseLoop_exit id (s.total - t) s.buffers.reverse 0 with hE | hE
    · left
      show s.total - (releaseLoop id (s.total - t) s.buffers.reverse 0).2 ≤ t
      omega
    · right
      rw [hbl]
      have hpos : 0 < (releaseLoop id (s.total - t) s.buffers.reverse 0).1.length := by
        cases hrl : (releaseLoop id (s.total - t) s.buffers.reverse 0).1 with
        | nil => exact absurd hrl hrem_ne
        | cons a as => simp [hrl]
      simp only [List.length_reverse]
      omega

lemma memShrink_sum (s : MemState) (t : ℤ) (hs : s.total = s.buffers.sum) :
    (memShrink s t).total = (memShrink s t).buffers.sum := by
  have h := releaseLoop_sum id (s.total - t) s.buffers.reverse 0
  simp only [List.map_id] at h
  have h2 : (s.buffers.reverse).sum = s.buffers.sum := List.sum_reverse _
  show s.total - (releaseLoop id (s.total - t) s.buffers.reverse 0).2
      = ((releaseLoop id (s.total - t) s.buffers.reverse 0).1.reverse).sum
  rw [List.sum_reverse]
  omega

lemma memShrink_mem (s : MemState) (t : ℤ) :
    ∀ b ∈ (memShrink s t).buffers, b ∈ s.buffers := by
  intro b hb
  have hbl : (memShrink s t).buffers
      = (releaseLoop id (s.total - t) s.buffers.reverse 0).1.reverse := rfl
  rw [hbl] at hb
  have hb2 := List.mem_reverse.mp hb
  have hb3 := releaseLoop_subset id (s.total - t) s.buffers.reverse 0 b hb2
  exact List.mem_reverse.mp hb3

lemma bumpAt_map_fst : ∀ (l : List (ℕ × ℤ)) (i : ℕ),
    (bumpAt l i).map Prod.fst = l.map Prod.fst := by
  intro l
  induction l with
  | nil => intro i; rfl
  | cons f rest ih =>
    intro i
    cases i with
    | zero => simp [bumpAt]
    | succ j => simp [bumpAt, ih j]

lemma bumpAt_length (l : List (ℕ × ℤ)) (i : ℕ) :
    (bumpAt l i).length = l.length := by
  have h := congrArg List.length (bumpAt_map_fst l i)
  simpa using h

lemma bumpAt_sum_le : ∀ (l : List (ℕ × ℤ)) (i : ℕ),
    sumSizes l ≤ sumSizes (bumpAt l i) := by
  intro l
  induction l with
  | nil => intro i; simp [bumpAt]
  | cons f rest ih =>
    intro i
    cases i with
    | zero => simp [bumpAt, sumSizes]
    | succ j =>
      have h := ih j
      simp only [bumpAt, sumSizes, List.map_cons, List.sum_cons] at h ⊢
      omega

lemma bumpAt_pos : ∀ (l : List (ℕ × ℤ)) (i : ℕ),
    (∀ f ∈ l, 0 < f.2) → ∀ f ∈ bumpAt l i, 0 < f.2 := by
  intro l
  induction l with
  | nil => intro i _ f hf; simp [bumpAt] at hf
  | cons g rest ih =>
    intro i hpos f hf
    cases i with
    | zero =>
      simp only [bumpAt, List.mem_cons] at hf
      rcases hf with hf | hf
      · have hg := hpos g (by simp)
        subst hf
        show 0 < g.2 + 1024
        omega
      · exact hpos f (by simp [hf])
    | succ j =>
      simp only [bumpAt, List.mem_cons] at hf
      rcases hf with hf | hf
      · exact hpos f (by simp [hf])
      · exact ih j (fun x hx => hpos x (by simp [hx])) f hf

lemma stLiveness_written (s : StState) (n : ℕ) :
    (stLiveness s n).written = s.written := by
  simp only [stLiveness]
  split <;> rfl

lemma stLiveness_fileCounter (s : StState) (n : ℕ) :
    (stLiveness s n).fileCounter = s.fileCounter := by
  simp only [stLiveness]
  split <;> rfl

lemma stLiveness_map_fst (s : StState) (n : ℕ) :
    (stLiveness s n).files.map Prod.fst = s.files.map Prod.fst := by
  simp only [stLiveness]
  split
  · rfl
  · exact bumpAt_map_fst _ _

lemma stLiveness_length (s : StState) (n : ℕ) :
    (stLiveness s n).files.length = s.files.length := by
  have h := congrArg List.length (stLiveness_map_fst s n)
  simpa using h

lemma stLiveness_sum_le (s : StState) (n : ℕ) :
    sumSizes s.files ≤ sumSizes (stLiveness s n).files := by
  simp only [stLiveness]
  split
  · exact le_refl _
  · exact bumpAt_sum_le _ _

lemma stLiveness_pos (s : StState) (n : ℕ) (h : ∀ f ∈ s.files, 0 < f.2) :
    ∀ f ∈ (stLiveness s n).files, 0 < f.2 := by
  simp only [stLiveness]
  split
  · exact h
  · exact bumpAt_pos _ _ h

lemma stTick_none (s : StState) (ok : Bool) (n : ℕ) :
    stTick s none ok n = s := rfl

lemma stTick_grow (s : StState) (t : ℤ) (ok : Bool) (n : ℕ)
    (h : s.written < t) : stTick s (some t) ok n = stGrow s t ok n := by
  simp only [stTick]
  rw [if_pos h]

lemma stTick_shrinkEq (s : StState) (t : ℤ) (ok : Bool) (n : ℕ)
    (h1 : t < s.written) (h2 : 1 < s.files.length) :
    stTick s (some t) ok n = stLiveness (stShrink s t) n := by
  simp only [stTick]
  rw [if_neg (by omega), if_pos ⟨h1, h2⟩]

lemma stTick_idle (s : StState) (t : ℤ) (ok : Bool) (n : ℕ)
    (h1 : ¬s.written < t) (h2 : ¬(t < s.written ∧ 1 < s.files.length)) :
    stTick s (some t) ok n = stLiveness s n := by
  simp only [stTick]
  rw [if_neg h1, if_neg h2]

lemma stGrow_eq (s : StState) (t : ℤ) (n : ℕ) (h : s.written < t) :
    stGrow s t true n
      = stLiveness
          { files := s.files ++ [(s.fileCounter, t - s.written)],
            written := t, fileCounter := s.fileCounter + 1 } n := by
  simp only [stGrow]
  rw [if_pos (by omega : (0 : ℤ) < t - s.written), if_pos trivial]
  have ht : s.written + (t - s.written) = t := by ring
  rw [ht]

lemma sumSizes_reverse (l : List (ℕ × ℤ)) : sumSizes l.reverse = sumSizes l := by
  simp [sumSizes, List.map_reverse, List.sum_reverse]

lemma stShrink_spec (s : StState) (t : ℤ) (h1 : t < s.written)
    (h2 : 1 < s.files.length) :
    (stShrink s t).files.length < s.files.length ∧
    (stShrink s t).files ≠ [] ∧
    (stShrink s t).files.head? = s.files.head? ∧
    (∃ d, d ≠ [] ∧ s.files = (stShrink s t).files ++ d) ∧
    ((stShrink s t).written ≤ t ∨ (stShrink s t).files.length = 1) ∧
    (stShrink s t).fileCounter = s.fileCounter := by
  have hLne : s.files.reverse ≠ [] := by
    have hpos : 0 < s.files.reverse.length := by
      simp only [List.length_reverse]
      omega
    exact List.length_pos.mp hpos
  obtain ⟨pre, hp⟩ :=
    releaseLoop_decomp Prod.snd (s.written - t) s.files.reverse 0
  have hrem_lt :
      (releaseLoop Prod.snd (s.written - t) s.files.reverse 0).1.length
        < s.files.reverse.length := by
    apply releaseLoop_progress
    · simpa using h2
    · omega
  have hrem_ne :
      (releaseLoop Prod.snd (s.written - t) s.files.reverse 0).1 ≠ [] :=
    releaseLoop_ne_nil Prod.snd (s.written - t) s.files.reverse 0 hLne
  have hbuf : s.files
      = (releaseLoop Prod.snd (s.written - t) s.files.reverse 0).1.reverse
        ++ pre.reverse := by
    have hrr := congrArg List.reverse hp
    simpa [List.reverse_append] using hrr
  have hpre_ne : pre ≠ [] := by
    intro h0
    rw [h0, List.nil_append] at hp
    have := congrArg List.length hp
    omega
  have hbl : (stShrink s t).files
      = (releaseLoop Prod.snd (s.written - t) s.files.reverse 0).1.reverse :=
    rfl
  have hbne : (stShrink s t).files ≠ [] := by
    rw [hbl]
    simpa using hrem_ne
  refine ⟨?_, hbne, ?_, ⟨pre.reverse, ?_, ?_⟩, ?_, rfl⟩
  · rw [hbl]
    simpa using hrem_lt
  · rw [hbl]
    conv_rhs => rw [hbuf]
    rw [head?_append_left _ _ (by simpa using hrem_ne)]
  · simpa using hpre_ne
  · rw [hbl]
    exact hbuf
  · rcases releaseLoop_exit Prod.snd (s.written - t) s.files.reverse 0 with hE | hE
    · left
      show s.written - (releaseLoop Prod.snd (s.written - t) s.files.reverse 0).2 ≤ t
      omega
    · right
      rw [hbl]
      have hposl :
          0 < (releaseLoop Prod.snd (s.written - t) s.files.reverse 0).1.length :=
        List.length_pos.mpr hrem_ne
      simp only [List.length_reverse]
      omega

lemma stShrink_sum (s : StState) (t : ℤ) (hs : s.written ≤ sumSizes s.files) :
    (stShrink s t).written ≤ sumSizes (stShrink s t).files := by
  have h := releaseLoop_sum Prod.snd (s.written - t) s.files.reverse 0
  have h2 : sumSizes s.files.reverse = sumSizes s.files := sumSizes_reverse _
  show s.written - (releaseLoop Prod.snd (s.written - t) s.files.reverse 0).2
      ≤ sumSizes ((releaseLoop Prod.snd (s.written - t) s.files.reverse 0).1.reverse)
  rw [sumSizes_reverse]
  simp only [sumSizes] at h h2 hs ⊢
  omega

lemma stShrink_mem (s : StState) (t : ℤ) :
    ∀ f ∈ (stShrink s t).files, f ∈ s.files := by
  intro f hf
  have hbl : (stShrink s t).files
      = (releaseLoop Prod.snd (s.written - t) s.files.reverse 0).1.reverse :=
    rfl
  rw [hbl] at hf
  have hf2 := List.mem_reverse.mp hf
  have hf3 := releaseLoop_subset Prod.snd (s.written - t) s.files.reverse 0 f hf2
  exact List.mem_reverse.mp hf3

/-! ### Invariant preservation -/

lemma foldl_preserve {σ β : Type} (f : σ → β → σ) (P : σ → Prop)
    (hstep : ∀ s x, P s → P (f s x)) :
    ∀ (l : List β) (s : σ), P s → P (l.foldl f s) := by
  intro l
  induction l with
  | nil => intro s hs; exact hs
  | cons x xs ih => intro s hs; exact ih (f s x) (hstep s x hs)

lemma memInvariant_init (t0 : ℤ) : memInvariant (memInit t0) := by
  unfold memInvariant memInit
  split_ifs with h
  · refine ⟨by simp, ?_⟩
    intro b hb
    simp only [List.mem_singleton] at hb
    omega
  · simp

lemma memInvariant_tick (s : MemState) (p : Option ℤ)
    (hi : memInvariant s) : memInvariant (memTick s p) := by
  cases p with
  | none => exact hi
  | some t =>
    obtain ⟨hsum, hpos⟩ := hi
    rcases lt_trichotomy s.total t with hlt | heq | hgt
    · rw [memTick_grow s t hlt, memGrow_eq s t hlt]
      refine ⟨?_, ?_⟩
      · simp only [List.sum_append, List.sum_cons, List.sum_nil]
        omega
      · intro b hb
        simp only [List.mem_append, List.mem_singleton] at hb
        rcases hb with hb | hb
        · exact hpos b hb
        · omega
    · rw [memTick_idle s t (by omega) (fun hc => absurd hc.1 (by omega))]
      exact ⟨hsum, hpos⟩
    · by_cases hlen : 1 < s.buffers.length
      · rw [memTick_shrinkEq s t hgt hlen]
        exact ⟨memShrink_sum s t hsum,
          fun b hb => hpos b (memShrink_mem s t b hb)⟩
      · rw [memTick_idle s t (by omega) (fun hc => hlen hc.2)]
        exact ⟨hsum, hpos⟩

lemma memInvariant_run (t0 : ℤ) (ps : List (Option ℤ)) :
    memInvariant (memRun t0 ps) :=
  foldl_preserve memTick memInvariant memInvariant_tick ps (memInit t0)
    (memInvariant_init t0)

lemma memInvariant_nonempty (s : MemState) (hi : memInvariant s)
    (h : 0 < s.total) : s.buffers ≠ [] := by
  intro h0
  obtain ⟨h1, _⟩ := hi
  rw [h0] at h1
  simp only [List.sum_nil] at h1
  omega

lemma stInvariant_liveness (s : StState) (n : ℕ) (hi : stInvariant s) :
    stInvariant (stLiveness s n) := by
  obtain ⟨h1, h2, h3, h4⟩ := hi
  refine ⟨?_, stLiveness_pos s n h2, ?_, ?_⟩
  · calc (stLiveness s n).written = s.written := stLiveness_written s n
    _ ≤ sumSizes s.files := h1
    _ ≤ sumSizes (stLiveness s n).files := stLiveness_sum_le s n
  · intro he
    have hlen := stLiveness_length s n
    rw [he] at hlen
    have : s.files = [] := by
      have := hlen.symm
      simpa [List.length_eq_zero] using this
    rw [stLiveness_fileCounter]
    exact h3 this
  · intro hne
    rw [stLiveness_map_fst]
    apply h4
    intro he
    apply hne
    have hlen := stLiveness_length s n
    rw [he] at hlen
    simpa [List.length_eq_zero] using hlen

lemma stInvariant_init (t0 : ℤ) : stInvariant (stInit t0) := by
  unfold stInvariant stInit
  split_ifs with h
  · refine ⟨by simp [sumSizes], ?_, by simp, by simp⟩
    intro f hf
    simp only [List.mem_singleton] at hf
    rw [hf]
    exact h
  · simp [sumSizes]

lemma stInvariant_tick (s : StState) (i : StIn) (hi : stInvariant s) :
    stInvariant (stTick s i.probe i.writeOk i.now) := by
  obtain ⟨h1, h2, h3, h4⟩ := hi
  cases hp : i.probe with
  | none => exact ⟨h1, h2, h3, h4⟩
  | some t =>
    rcases lt_trichotomy s.written t with hlt | heq | hgt
    · rw [stTick_grow s t i.writeOk i.now hlt]
      cases hok : i.writeOk with
      | false =>
        have hred : stGrow s t false i.now = s := by
          simp only [stGrow]
          rw [if_pos (by omega : (0 : ℤ) < t - s.written)]
          simp
        rw [hred]
        exact ⟨h1, h2, h3, h4⟩
      | true =>
        rw [stGrow_eq s t i.now hlt]
        apply stInvariant_liveness
        refine ⟨?_, ?_, ?_, ?_⟩
        · simp only [sumSizes, List.map_append, List.sum_append,
            List.map_cons, List.map_nil, List.sum_cons, List.sum_nil]
          simp only [sumSizes] at h1
          omega
        · intro f hf
          simp only [List.mem_append, List.mem_singleton] at hf
          rcases hf with hf | hf
          · exact h2 f hf
          · rw [hf]
            show 0 < t - s.written
            omega
        · intro he
          simp at he
        · intro _
          show ((s.files ++ [(s.fileCounter, t - s.written)]).map Prod.fst).head?
              = some 0
          rw [List.map_append]
          cases hsf : s.files with
          | nil =>
            have hc := h3 hsf
            simp [hsf, hc]
          | cons a as =>
            rw [head?_append_left]
            · rw [← hsf]
              exact h4 (by simp [hsf])
            · simp [hsf]
    · rw [stTick_idle s t i.writeOk i.now (by omega)
        (fun hc => absurd hc.1 (by omega))]
      exact stInvariant_liveness s i.now ⟨h1, h2, h3, h4⟩
    · by_cases hlen : 1 < s.files.length
      · rw [stTick_shrinkEq s t i.writeOk i.now hgt hlen]
        apply stInvariant_liveness
        obtain ⟨hslen, hsne, hshead, _, _, hsctr⟩ := stShrink_spec s t hgt hlen
        refine ⟨stShrink_sum s t h1,
          fun f hf => h2 f (stShrink_mem s t f hf), ?_, ?_⟩
        · intro he
          exact absurd he hsne
        · intro _
          rw [List.head?_map, hshead, ← List.head?_map]
          exact h4 (by
            intro h0
            rw [h0] at hlen
            simp at hlen)
      · rw [stTick_idle s t i.writeOk i.now (by omega) (fun hc => hlen hc.2)]
        exact stInvariant_liveness s i.now ⟨h1, h2, h3, h4⟩

lemma stInvariant_run (t0 : ℤ) (ins : List StIn) :
    stInvariant (stRun t0 ins) := by
  unfold stRun
  exact foldl_preserve (fun s i => stTick s i.probe i.writeOk i.now)
    stInvariant (fun s i hi => stInvariant_tick s i hi) ins (stInit t0)
    (stInvariant_init t0)

lemma stInvariant_nonempty (s : StState) (hi : stInvariant s)
    (h : 0 < s.written) : s.files ≠ [] := by
  intro h0
  obtain ⟨h1, _, _, _⟩ := hi
  rw [h0] at h1
  simp only [sumSizes, List.map_nil, List.sum_nil] at h1
  omega

/-! ### The chunked write loop and the directory cleanup -/

lemma writeLoop_eq_size (size : ℕ) :
    ∀ (fuel written : ℕ), size - written ≤ fuel → written ≤ size →
      writeLoop size written = size := by
  intro fuel
  induction fuel with
  | zero =>
    intro written hf hw
    have he : written = size := by omega
    unfold writeLoop
    rw [if_neg (by omega)]
    exact he
  | succ n ih =>
    intro written hf hw
    by_cases h : written < size
    · unfold writeLoop
      rw [if_pos h]
      by_cases h2 : size < written + 65536
      · rw [if_pos h2]
        exact ih (written + (size - written)) (by omega) (by omega)
      · rw [if_neg h2]
        exact ih (written + 65536) (by omega) (by omega)
    · unfold writeLoop
      rw [if_neg h]
      omega

lemma foldl_removeAllDir (ops : List FsOp) :
    (ops ++ [FsOp.removeAllDir]).foldl applyFsOp [] = ([] : List (ℕ × ℤ)) := by
  rw [List.foldl_append]
  rfl

lemma stGrow_fail (s : StState) (t : ℤ) (n : ℕ) (h : s.written < t) :
    stGrow s t false n = s := by
  simp only [stGrow]
  rw [if_pos (by omega : (0 : ℤ) < t - s.written)]
  simp

/-! ### Claim C1 -/

/-- C1: the claim states that a shrink tick (recomputed target below the
held total, at least two segments) removes segments from the tail until
the freed size reaches the excess or only segment 0 remains, and that
afterwards heldTotal is at least the target.  The last part is false: the
loop frees whole segments while the freed amount is still below the
excess, so the freed amount can overshoot and leave heldTotal below the
target.  Concretely, after targets 10 and 100 the buffers are [10, 90];
a recomputed target of 50 removes the 90-byte buffer and leaves
heldTotal 10 < 50. -/
theorem C1_counterexample :
    (memRun 10 [some 100]).buffers.length = 2 ∧
    50 < (memRun 10 [some 100]).total ∧
    memRun 10 [some 100, some 50] = { buffers := [10], total := 10 } ∧
    ¬(50 ≤ (memRun 10 [some 100, some 50]).total) := by decide

/-- C1 (amended): on a shrink tick of either dynamic controller, segments
are removed from the tail only (the remaining segments are a prefix of the
old list and at least one segment is dropped), segment 0 is kept, and
afterwards either heldTotal ≤ target (the freed amount reached the excess,
possibly overshooting the target) or only segment 0 remains. -/
theorem C1_shrink_amended :
    (∀ (s : MemState) (t : ℤ), t < s.total → 1 < s.buffers.length →
      (memTick s (some t)).buffers.length < s.buffers.length ∧
      (memTick s (some t)).buffers ≠ [] ∧
      (memTick s (some t)).buffers.head? = s.buffers.head? ∧
      (∃ d, d ≠ [] ∧ s.buffers = (memTick s (some t)).buffers ++ d) ∧
      ((memTick s (some t)).total ≤ t ∨
        (memTick s (some t)).buffers.length = 1)) ∧
    (∀ (s : StState) (t : ℤ) (ok : Bool) (n : ℕ),
      t < s.written → 1 < s.files.length →
      (stTick s (some t) ok n).files.length < s.files.length ∧
      (stTick s (some t) ok n).files ≠ [] ∧
      ((stTick s (some t) ok n).files.map Prod.fst).head?
        = (s.files.map Prod.fst).head? ∧
      (∃ d, d ≠ [] ∧ s.files.map Prod.fst
        = (stTick s (some t) ok n).files.map Prod.fst ++ d) ∧
      ((stTick s (some t) ok n).written ≤ t ∨
        (stTick s (some t) ok n).files.length = 1)) := by
  constructor
  · intro s t h1 h2
    rw [memTick_shrinkEq s t h1 h2]
    exact memShrink_spec s t h1 h2
  · intro s t ok n h1 h2
    rw [stTick_shrinkEq s t ok n h1 h2]
    obtain ⟨hlen, hne, hhead, ⟨d, hdne, hdec⟩, hexit, _⟩ := stShrink_spec s t h1 h2
    refine ⟨?_, ?_, ?_, ?_, ?_⟩
    · rw [stLiveness_length]
      exact hlen
    · have hp : 0 < (stLiveness (stShrink s t) n).files.length := by
        rw [stLiveness_length]
        exact List.length_pos.mpr hne
      exact List.length_pos.mp hp
    · rw [stLiveness_map_fst, List.head?_map, hhead, List.head?_map]
    · refine ⟨d.map Prod.fst, ?_, ?_⟩
      · simpa [List.map_eq_nil_iff] using hdne
      · rw [stLiveness_map_fst]
        conv_lhs => rw [hdec]
        rw [List.map_append]
    · rcases hexit with hE | hE
      · left
        rw [stLiveness_written]
        exact hE
      · right
        rw [stLiveness_length]
        exact hE

/-- C1 witness: the amended shrink behaviour at concrete states. -/
theorem C1_shrink_amended_witness :
    ((50 : ℤ) < 100 ∧ 1 < ([10, 90] : List ℤ).length ∧
      (memTick { buffers := [10, 90], total := 100 } (some 50)).buffers.length
        < ([10, 90] : List ℤ).length) ∧
    ((60 : ℤ) < 100 ∧ 1 < ([(0, 10), (1, 90)] : List (ℕ × ℤ)).length ∧
      (stTick { files := [(0, 10), (1, 90)], written := 100, fileCounter := 2 }
          (some 60) true 0).files.length
        < ([(0, 10), (1, 90)] : List (ℕ × ℤ)).length) := by
  constructor
  · refine ⟨by decide, by decide, ?_⟩
    exact (C1_shrink_amended.1 { buffers := [10, 90], total := 100 } 50
      (by decide) (by decide)).1
  · refine ⟨by decide, by decide, ?_⟩
    exact (C1_shrink_amended.2
      { files := [(0, 10), (1, 90)], written := 100, fileCounter := 2 } 60
      true 0 (by decide) (by decide)).1

/-! ### Claim C2 -/

/-- C2: on a growth tick (recomputed target above the held total, and for
storage a successful write), the controller appends exactly one new
segment of size target − held, so heldTotal becomes exactly the target and
the segment count rises by one; moreover on any tick the segment sequence
is either extended at the end or truncated at the end, never both, so
growth and shrink are mutually exclusive within a tick. -/
theorem C2_growth :
    (∀ (s : MemState) (t : ℤ), s.total < t →
      memTick s (some t)
        = { buffers := s.buffers ++ [t - s.total], total := t }) ∧
    (∀ (s : MemState) (p : Option ℤ),
      (∃ a, (memTick s p).buffers = s.buffers ++ a) ∨
      (∃ d, s.buffers = (memTick s p).buffers ++ d)) ∧
    (∀ (s : StState) (t : ℤ) (n : ℕ), s.written < t →
      (stTick s (some t) true n).written = t ∧
      (stTick s (some t) true n).files.length = s.files.length + 1 ∧
      (stTick s (some t) true n).files.map Prod.fst
        = s.files.map Prod.fst ++ [s.fileCounter]) ∧
    (∀ (s : StState) (p : Option ℤ) (ok : Bool) (n : ℕ),
      (∃ a, (stTick s p ok n).files.map Prod.fst
        = s.files.map Prod.fst ++ a) ∨
      (∃ d, s.files.map Prod.fst
        = (stTick s p ok n).files.map Prod.fst ++ d)) := by
  refine ⟨?_, ?_, ?_, ?_⟩
  · intro s t hlt
    rw [memTick_grow s t hlt, memGrow_eq s t hlt]
  · intro s p
    cases p with
    | none => exact Or.inl ⟨[], by simp [memTick_none]⟩
    | some t =>
      rcases lt_trichotomy s.total t with hlt | heq | hgt
      · left
        refine ⟨[t - s.total], ?_⟩
        rw [memTick_grow s t hlt, memGrow_eq s t hlt]
      · left
        refine ⟨[], ?_⟩
        rw [memTick_idle s t (by omega) (fun hc => absurd hc.1 (by omega))]
        simp
      · by_cases hlen : 1 < s.buffers.length
        · right
          obtain ⟨_, _, _, ⟨d, _, hdec⟩, _⟩ := memShrink_spec s t hgt hlen
          rw [memTick_shrinkEq s t hgt hlen]
          exact ⟨d, hdec⟩
        · left
          refine ⟨[], ?_⟩
          rw [memTick_idle s t (by omega) (fun hc => hlen hc.2)]
          simp
  · intro s t n hlt
    rw [stTick_grow s t true n hlt, stGrow_eq s t n hlt]
    refine ⟨?_, ?_, ?_⟩
    · rw [stLiveness_written]
    · rw [stLiveness_length]
      simp
    · rw [stLiveness_map_fst]
      simp
  · intro s p ok n
    cases p with
    | none => exact Or.inl ⟨[], by simp [stTick_none]⟩
    | some t =>
      rcases lt_trichotomy s.written t with hlt | heq | hgt
      · cases ok with
        | true =>
          left
          refine ⟨[s.fileCounter], ?_⟩
          rw [stTick_grow s t true n hlt, stGrow_eq s t n hlt,
            stLiveness_map_fst]
          simp
        | false =>
          left
          refine ⟨[], ?_⟩
          rw [stTick_grow s t false n hlt, stGrow_fail s t n hlt]
          simp
      · left
        refine ⟨[], ?_⟩
        rw [stTick_idle s t ok n (by omega)
          (fun hc => absurd hc.1 (by omega)), stLiveness_map_fst]
        simp
      · by_cases hlen : 1 < s.files.length
        · right
          obtain ⟨_, _, _, ⟨d, _, hdec⟩, _, _⟩ := stShrink_spec s t hgt hlen
          refine ⟨d.map Prod.fst, ?_⟩
          rw [stTick_shrinkEq s t ok n hgt hlen, stLiveness_map_fst]
          conv_lhs => rw [hdec]
          rw [List.map_append]
        · left
          refine ⟨[], ?_⟩
          rw [stTick_idle s t ok n (by omega) (fun hc => hlen hc.2),
            stLiveness_map_fst]
          simp

/-- C2 witness: growth at concrete states of both controllers. -/
theorem C2_growth_witness :
    ((5 : ℤ) < 12 ∧
      memTick { buffers := [5], total := 5 } (some 12)
        = { buffers := [5, 7], total := 12 }) ∧
    ((5 : ℤ) < 12 ∧
      (stTick { files := [(0, 5)], written := 5, fileCounter := 1 }
        (some 12) true 0).written = 12) := by
  constructor
  · refine ⟨by decide, ?_⟩
    have h := C2_growth.1 { buffers := [5], total := 5 } 12 (by decide)
    exact h.trans (by decide)
  · refine ⟨by decide, ?_⟩
    exact (C2_growth.2.2.1 { files := [(0, 5)], written := 5, fileCounter := 1 }
      12 0 (by decide)).1

/-! ### Claim C3 -/

/-- C3: the claim states that for both dynamic controllers the tracked
held total always equals the sum of the held segment sizes.  This is false
for the storage controller: the per-tick I/O step appends 1024 bytes to
one on-disk file without updating totalWritten.  Concretely, after an
initial 100-byte file, one tick whose recomputed target is again 100
performs only the I/O append, leaving totalWritten 100 but an on-disk sum
of 1124. -/
theorem C3_counterexample :
    (stRun 100 [{ probe := some 100, writeOk := true, now := 0 }]).written
      = 100 ∧
    sumSizes
      (stRun 100 [{ probe := some 100, writeOk := true, now := 0 }]).files
      = 1124 ∧
    ¬((stRun 100 [{ probe := some 100, writeOk := true, now := 0 }]).written
      = sumSizes
          (stRun 100 [{ probe := some 100, writeOk := true, now := 0 }]).files)
    := by decide

/-- C3 (amended): after initialization, at every observation point the
memory controller's tracked total equals the sum of the held buffer sizes
and a buffer is held whenever the total is positive; the storage
controller's tracked total is only a lower bound of the sum of the on-disk
file sizes (the untracked liveness appends grow the files), and whenever
the tracked total is positive some file is held and the first held file is
file number 0. -/
theorem C3_invariant_amended :
    (∀ (t0 : ℤ) (ps : List (Option ℤ)),
      (memRun t0 ps).total = (memRun t0 ps).buffers.sum ∧
      (0 < (memRun t0 ps).total → (memRun t0 ps).buffers ≠ [])) ∧
    (∀ (t0 : ℤ) (ins : List StIn),
      (stRun t0 ins).written ≤ sumSizes (stRun t0 ins).files ∧
      (0 < (stRun t0 ins).written →
        (stRun t0 ins).files ≠ [] ∧
        ((stRun t0 ins).files.map Prod.fst).head? = some 0)) := by
  constructor
  · intro t0 ps
    have hi := memInvariant_run t0 ps
    exact ⟨hi.1, fun h => memInvariant_nonempty _ hi h⟩
  · intro t0 ins
    have hi := stInvariant_run t0 ins
    refine ⟨hi.1, fun h => ?_⟩
    have hne := stInvariant_nonempty _ hi h
    exact ⟨hne, hi.2.2.2 hne⟩

/-- C3 witness: the amended invariant at concrete runs. -/
theorem C3_invariant_amended_witness :
    ((memRun 10 [some 100, none, some 3]).total
      = (memRun 10 [some 100, none, some 3]).buffers.sum) ∧
    (0 < (memRun 10 [some 100, none, some 3]).total ∧
      (memRun 10 [some 100, none, some 3]).buffers ≠ []) ∧
    (0 < (stRun 100 [{ probe := some 150, writeOk := true, now := 3 }]).written ∧
      ((stRun 100 [{ probe := some 150, writeOk := true, now := 3 }]).files.map
        Prod.fst).head? = some 0) := by
  refine ⟨(C3_invariant_amended.1 10 [some 100, none, some 3]).1,
    ⟨by decide, ?_⟩, ⟨by decide, ?_⟩⟩
  · exact (C3_invariant_amended.1 10 [some 100, none, some 3]).2 (by decide)
  · exact ((C3_invariant_amended.2 100
      [{ probe := some 150, writeOk := true, now := 3 }]).2 (by decide)).2

/-! ### Claim C4 -/

/-- C4: the claim requires the per-cycle target to be freeBytes * percent
/ 100 * safetyFactor with freeBytes a fresh live-OS query.  The storage
controller satisfies this (its free-space figure comes from a statfs call
each cycle, second conjunct: 1000000000 * 80% * 0.90 = 720000000).  The
memory controller does not: its free-memory figure is the hardcoded
constant 8 GiB minus the Go runtime's own MemStats.Sys, not an OS query,
so with MemStats.Sys = 0 the target is 8 GiB * percent / 100 * 0.95
regardless of the machine's actual free memory (first conjunct:
8589934592 * 100% * 0.95 truncated is 8160437862). -/
theorem C4_memory_probe_hardcoded :
    memCalculatePercentageSize 0 100 = some 8160437862 ∧
    storCalculatePercentageSize 1000000000 80 = some 720000000 := by decide

/-! ### Claim C5 -/

/-- C5: the claim states that whenever a dynamic controller's target
computation fails (computed target ≤ 0), that controller exits early.
This holds only for the initial computation: a failed per-tick
recomputation is logged and the cycle skipped, and the controller keeps
running.  Concretely, the memory probe fails when MemStats.Sys equals the
hardcoded 8 GiB total; a run whose first tick hits that failure still
executes its second tick and grows from 10 to 100 bytes instead of having
exited. -/
theorem C5_counterexample :
    memCalculatePercentageSize (8 * 1024 * 1024 * 1024) 50 = none ∧
    memRun 10 [none] = { buffers := [10], total := 10 } ∧
    memRun 10 [none, some 100] = { buffers := [10, 90], total := 100 } := by
  decide

/-- C5 (amended): a failed initial target computation makes the controller
return early holding nothing, for both controllers, while a failed
per-tick recomputation leaves the controller state unchanged and the loop
continues. -/
theorem C5_exit_amended :
    (∀ (sysBytes percent : ℤ),
      memCalculatePercentageSize sysBytes percent = none →
      memDynInit sysBytes percent = none) ∧
    (∀ (s : MemState), memTick s none = s) ∧
    (∀ (freeSpace percent : ℤ),
      storCalculatePercentageSize freeSpace percent = none →
      stDynInit freeSpace percent = none) ∧
    (∀ (s : StState) (ok : Bool) (n : ℕ), stTick s none ok n = s) := by
  refine ⟨?_, fun s => rfl, ?_, fun s ok n => rfl⟩
  · intro sys p h
    unfold memDynInit
    rw [h]
    rfl
  · intro f p h
    unfold stDynInit
    rw [h]
    rfl

/-- C5 witness: concrete degenerate probes make both controllers exit
early at initialization. -/
theorem C5_exit_amended_witness :
    (memCalculatePercentageSize (8 * 1024 * 1024 * 1024) 50 = none ∧
      memDynInit (8 * 1024 * 1024 * 1024) 50 = none) ∧
    (storCalculatePercentageSize 0 50 = none ∧ stDynInit 0 50 = none) := by
  refine ⟨⟨by decide, ?_⟩, ⟨by decide, ?_⟩⟩
  · exact C5_exit_amended.1 (8 * 1024 * 1024 * 1024) 50 (by decide)
  · exact C5_exit_amended.2.2.1 0 50 (by decide)

/-! ### Claim C6 -/

/-- C6: for every run of the storage allocator and every body behaviour
(any sequence of file operations, ending normally, cancelled or on error),
the temporary directory is gone when GenerateLoad returns: either it was
never created, or the deferred removal leaves it empty; and the memory
controller's exit paths always release every held buffer. -/
theorem C6_cleanup :
    (∀ (mkdirOk : Bool) (bodyOps : List FsOp),
      storageGenerateLoadDir mkdirOk bodyOps = none ∨
      storageGenerateLoadDir mkdirOk bodyOps = some []) ∧
    (∀ (initProbe : Option ℤ) (probes : List (Option ℤ)),
      (memControllerFinal initProbe probes).buffers = []) := by
  constructor
  · intro mk ops
    cases mk with
    | false => left; rfl
    | true =>
      right
      show some ((ops ++ [FsOp.removeAllDir]).foldl applyFsOp []) = some []
      rw [foldl_removeAllDir]
  · intro ip ps
    cases ip <;> rfl

/-! ### Claim C10 -/

/-- C10: the static storage allocator writes exactly ten files, each of
size max(totalSize/10, 1 MiB) with the chunked write loop writing exactly
that many bytes per file; for a request below 10 MiB the total written is
the 10 MiB minimum and exceeds the request, and otherwise it is
10 * (totalSize/10), between the request and nine bytes below it. -/
theorem C10_static_storage (totalSize : ℕ) :
    (performStorageOperationsFileSizes totalSize).length = 10 ∧
    (∀ f ∈ performStorageOperationsFileSizes totalSize,
      f = max (totalSize / 10) (1024 * 1024) ∧ writeLoop f 0 = f) ∧
    (totalSize < 10 * 1024 * 1024 →
      (performStorageOperationsFileSizes totalSize).sum = 10 * 1024 * 1024 ∧
      totalSize < (performStorageOperationsFileSizes totalSize).sum) ∧
    (10 * 1024 * 1024 ≤ totalSize →
      (performStorageOperationsFileSizes totalSize).sum
        = 10 * (totalSize / 10) ∧
      (performStorageOperationsFileSizes totalSize).sum ≤ totalSize ∧
      totalSize ≤ (performStorageOperationsFileSizes totalSize).sum + 9) := by
  have hre : performStorageOperationsFileSizes totalSize
      = List.replicate 10
          (if totalSize / 10 < 1024 * 1024 then 1024 * 1024
            else totalSize / 10) := rfl
  rw [hre]
  refine ⟨by simp, ?_, ?_, ?_⟩
  · intro f hf
    have hfv := List.eq_of_mem_replicate hf
    subst hfv
    constructor
    · split_ifs with h <;> omega
    · split_ifs with h
      · exact writeLoop_eq_size (1024 * 1024) (1024 * 1024) 0 (by omega)
          (by omega)
      · exact writeLoop_eq_size (totalSize / 10) (totalSize / 10) 0 (by omega)
          (by omega)
  · intro hsmall
    have hdiv : totalSize / 10 < 1024 * 1024 := by omega
    rw [if_pos hdiv, List.sum_replicate, smul_eq_mul]
    omega
  · intro hbig
    have hdiv : ¬(totalSize / 10 < 1024 * 1024) := by omega
    rw [if_neg hdiv, List.sum_replicate, smul_eq_mul]
    omega

/-- C10 witness: both regimes at concrete requested totals. -/
theorem C10_static_storage_witness :
    ((5242880 : ℕ) < 10 * 1024 * 1024 ∧
      (performStorageOperationsFileSizes 5242880).sum = 10 * 1024 * 1024) ∧
    ((10 * 1024 * 1024 : ℕ) ≤ 20971527 ∧
      (performStorageOperationsFileSizes 20971527).sum
        = 10 * (20971527 / 10)) := by
  refine ⟨⟨by decide, ?_⟩, ⟨by decide, ?_⟩⟩
  · exact ((C10_static_storage 5242880).2.2.1 (by decide)).1
  · exact ((C10_static_storage 20971527).2.2.2 (by decide)).1

/-! ### Helper lemmas about the size parser -/

lemma dropWhile_all_neg {α : Type} (p : α → Bool) :
    ∀ (l : List α), (∀ c ∈ l, p c = false) → l.dropWhile p = l := by
  intro l
  induction l with
  | nil => intro _; rfl
  | cons a as _ =>
    intro h
    rw [List.dropWhile_cons, h a (by simp)]
    simp

lemma trimSpace_eq_self (cs : List Char)
    (h : ∀ c ∈ cs, isGoSpace c = false) : trimSpace cs = cs := by
  unfold trimSpace
  rw [dropWhile_all_neg _ _ h,
    dropWhile_all_neg _ _ (fun c hc => h c (List.mem_reverse.mp hc))]
  exact List.reverse_reverse cs

lemma head?_mem_of_eq {α : Type} (l : List α) (a : α) (h : l.head? = some a) :
    a ∈ l := by
  cases l with
  | nil => simp at h
  | cons x xs =>
    simp only [List.head?_cons, Option.some.injEq] at h
    simp [h.symm]

lemma getLast?_ne_of_forall (l : List Char) (a : Char)
    (h : ∀ c ∈ l, c ≠ a) : ¬(l.getLast? = some a) := by
  intro he
  rw [List.getLast?_eq_head?_reverse] at he
  have hm := head?_mem_of_eq _ _ he
  exact h a (List.mem_reverse.mp hm) rfl

lemma map_id_of_forall {α : Type} (f : α → α) (l : List α)
    (h : ∀ c ∈ l, f c = c) : l.map f = l := by
  induction l with
  | nil => rfl
  | cons a as ih =>
    rw [List.map_cons, h a (by simp), ih (fun c hc => h c (by simp [hc]))]

lemma isDigit_digitChar (d : ℕ) (h : d < 10) :
    (digitChar d).isDigit = true := by
  interval_cases d <;> decide

lemma digitVal_digitChar (d : ℕ) (h : d < 10) :
    digitVal (digitChar d) = d := by
  interval_cases d <;> decide

lemma toUpper_digitChar (d : ℕ) (h : d < 10) :
    (digitChar d).toUpper = digitChar d := by
  interval_cases d <;> decide

lemma digitChar_not_space (d : ℕ) (h : d < 10) :
    isGoSpace (digitChar d) = false := by
  interval_cases d <;> decide

lemma digitChar_ne_pct (d : ℕ) (h : d < 10) : digitChar d ≠ '%' := by
  interval_cases d <;> decide

lemma takeDigits_map_append (ds : List ℕ) (rest : List Char)
    (hd : ∀ d ∈ ds, d < 10)
    (hr : ∀ c, rest.head? = some c → c.isDigit = false) :
    takeDigits (ds.map digitChar ++ rest) = (ds, rest) := by
  induction ds with
  | nil =>
    simp only [List.map_nil, List.nil_append]
    cases rest with
    | nil => rfl
    | cons c cs =>
      have hc := hr c rfl
      simp [takeDigits, hc]
  | cons d ds ih =>
    have hd0 : d < 10 := hd d (by simp)
    have hih := ih (fun x hx => hd x (by simp [hx]))
    simp only [List.map_cons, List.cons_append, takeDigits,
      isDigit_digitChar d hd0, if_true, List.append_eq, hih,
      digitVal_digitChar d hd0]

lemma matchUnitPart_eval (ds fs : List ℕ) (u : List Char)
    (hcl : ∀ c ∈ u, isRegexSpace c = false) (hm : matchUnit u = some u) :
    matchUnitPart ds fs u = some ((ds, fs), u) := by
  unfold matchUnitPart
  rw [dropWhile_all_neg _ _ hcl, hm]
  rfl

lemma matchAbs_eval_nil (cs : List Char) (ds : List ℕ)
    (hta : takeDigits cs = (ds, [])) (hne : ds.isEmpty = false) :
    matchAbs cs = matchUnitPart ds [] [] := by
  unfold matchAbs
  simp only [hta, hne, Bool.false_eq_true, if_false]

lemma matchAbs_eval_nodot (cs : List Char) (ds : List ℕ) (c : Char)
    (r2 : List Char) (hta : takeDigits cs = (ds, c :: r2))
    (hne : ds.isEmpty = false) (hc : ¬(c = '.')) :
    matchAbs cs = matchUnitPart ds [] (c :: r2) := by
  unfold matchAbs
  simp only [hta, hne, Bool.false_eq_true, if_false]
  rw [if_neg hc]

lemma matchAbs_eval_dot (cs : List Char) (ds : List ℕ) (r2 : List Char)
    (fs : List ℕ) (rr : List Char) (hta : takeDigits cs = (ds, '.' :: r2))
    (hne : ds.isEmpty = false) (hta2 : takeDigits r2 = (fs, rr))
    (hfs : fs.isEmpty = false) :
    matchAbs cs = matchUnitPart ds fs rr := by
  unfold matchAbs
  simp only [hta, hne, Bool.false_eq_true, if_false, hta2, hfs]
  rw [if_pos trivial]

lemma parseSizeChars_abs (cs : List Char) (ds fs : List ℕ) (u : List Char)
    (m : ℤ) (htrim : trimSpace cs = cs)
    (hlast : ¬(cs.getLast? = some '%'))
    (hup : cs.map Char.toUpper = cs)
    (hmabs : matchAbs cs = some ((ds, fs), u))
    (hmm : unitMultiplier u = some m) :
    parseSizeChars cs
      = .ok (Int.tdiv ((absNumberDec ds fs).1 * m)
          ((10 : ℤ) ^ (absNumberDec ds fs).2)) := by
  simp only [parseSizeChars, htrim]
  rw [if_neg hlast]
  simp only [hup, hmabs, hmm]

lemma parseAbs_core_nofrac (ds : List ℕ) (u : List Char) (m : ℤ)
    (hds : ds ≠ []) (hd : ∀ d ∈ ds, d < 10)
    (hmu : matchUnit u = some u) (hmm : unitMultiplier u = some m)
    (hcl : ∀ c ∈ u, isGoSpace c = false ∧ c.toUpper = c ∧
      isRegexSpace c = false ∧ c.isDigit = false ∧ c ≠ '%' ∧ c ≠ '.') :
    parseSizeChars (ds.map digitChar ++ u)
      = .ok (Int.tdiv ((absNumberDec ds []).1 * m)
          ((10 : ℤ) ^ (absNumberDec ds []).2)) := by
  have hmemd : ∀ c ∈ ds.map digitChar, ∃ d, d < 10 ∧ c = digitChar d := by
    intro c hc
    obtain ⟨d, hdm, rfl⟩ := List.mem_map.mp hc
    exact ⟨d, hd d hdm, rfl⟩
  have hnospace : ∀ c ∈ ds.map digitChar ++ u, isGoSpace c = false := by
    intro c hc
    rcases List.mem_append.mp hc with hc | hc
    · obtain ⟨d, hd0, rfl⟩ := hmemd c hc
      exact digitChar_not_space d hd0
    · exact (hcl c hc).1
  have hnopct : ∀ c ∈ ds.map digitChar ++ u, c ≠ '%' := by
    intro c hc
    rcases List.mem_append.mp hc with hc | hc
    · obtain ⟨d, hd0, rfl⟩ := hmemd c hc
      exact digitChar_ne_pct d hd0
    · exact (hcl c hc).2.2.2.2.1
  have hupper : (ds.map digitChar ++ u).map Char.toUpper
      = ds.map digitChar ++ u := by
    apply map_id_of_forall
    intro c hc
    rcases List.mem_append.mp hc with hc | hc
    · obtain ⟨d, hd0, rfl⟩ := hmemd c hc
      exact toUpper_digitChar d hd0
    · exact (hcl c hc).2.1
  have hta : takeDigits (ds.map digitChar ++ u) = (ds, u) :=
    takeDigits_map_append ds u hd
      (fun c hc => (hcl c (head?_mem_of_eq _ _ hc)).2.2.2.1)
  have hdse : ds.isEmpty = false := by
    cases ds with
    | nil => exact absurd rfl hds
    | cons a as => rfl
  have hmabs : matchAbs (ds.map digitChar ++ u) = some ((ds, []), u) := by
    cases u with
    | nil =>
      rw [matchAbs_eval_nil _ ds hta hdse]
      exact matchUnitPart_eval ds [] [] (by simp) hmu
    | cons c r2 =>
      rw [matchAbs_eval_nodot _ ds c r2 hta hdse
        (hcl c (by simp)).2.2.2.2.2]
      exact matchUnitPart_eval ds [] (c :: r2)
        (fun x hx => (hcl x hx).2.2.1) hmu
  exact parseSizeChars_abs _ ds [] u m (trimSpace_eq_self _ hnospace)
    (getLast?_ne_of_forall _ '%' hnopct) hupper hmabs hmm

lemma parseAbs_core_frac (ds fs : List ℕ) (u : List Char) (m : ℤ)
    (hds : ds ≠ []) (hfs : fs ≠ []) (hd : ∀ d ∈ ds, d < 10)
    (hf : ∀ d ∈ fs, d < 10)
    (hmu : matchUnit u = some u) (hmm : unitMultiplier u = some m)
    (hcl : ∀ c ∈ u, isGoSpace c = false ∧ c.toUpper = c ∧
      isRegexSpace c = false ∧ c.isDigit = false ∧ c ≠ '%' ∧ c ≠ '.') :
    parseSizeChars (ds.map digitChar ++ ('.' :: (fs.map digitChar ++ u)))
      = .ok (Int.tdiv ((absNumberDec ds fs).1 * m)
          ((10 : ℤ) ^ (absNumberDec ds fs).2)) := by
  have hmem : ∀ c ∈ ds.map digitChar ++ ('.' :: (fs.map digitChar ++ u)),
      (∃ d, d < 10 ∧ c = digitChar d) ∨ c = '.' ∨ c ∈ u := by
    intro c hc
    rcases List.mem_append.mp hc with hc | hc
    · obtain ⟨d, hdm, rfl⟩ := List.mem_map.mp hc
      exact Or.inl ⟨d, hd d hdm, rfl⟩
    · rcases List.mem_cons.mp hc with hc | hc
      · exact Or.inr (Or.inl hc)
      · rcases List.mem_append.mp hc with hc | hc
        · obtain ⟨d, hdm, rfl⟩ := List.mem_map.mp hc
          exact Or.inl ⟨d, hf d hdm, rfl⟩
        · exact Or.inr (Or.inr hc)
  have hnospace : ∀ c ∈ ds.map digitChar ++ ('.' :: (fs.map digitChar ++ u)),
      isGoSpace c = false := by
    intro c hc
    rcases hmem c hc with ⟨d, hd0, rfl⟩ | rfl | hc
    · exact digitChar_not_space d hd0
    · decide
    · exact (hcl c hc).1
  have hnopct : ∀ c ∈ ds.map digitChar ++ ('.' :: (fs.map digitChar ++ u)),
      c ≠ '%' := by
    intro c hc
    rcases hmem c hc with ⟨d, hd0, rfl⟩ | rfl | hc
    · exact digitChar_ne_pct d hd0
    · decide
    · exact (hcl c hc).2.2.2.2.1
  have hupper : (ds.map digitChar ++ ('.' :: (fs.map digitChar ++ u))).map
      Char.toUpper = ds.map digitChar ++ ('.' :: (fs.map digitChar ++ u)) := by
    apply map_id_of_forall
    intro c hc
    rcases hmem c hc with ⟨d, hd0, rfl⟩ | rfl | hc
    · exact toUpper_digitChar d hd0
    · decide
    · exact (hcl c hc).2.1
  have hta : takeDigits (ds.map digitChar ++ ('.' :: (fs.map digitChar ++ u)))
      = (ds, '.' :: (fs.map digitChar ++ u)) :=
    takeDigits_map_append ds _ hd (by
      intro c hc
      simp only [List.head?_cons, Option.some.injEq] at hc
      rw [← hc]
      decide)
  have hta2 : takeDigits (fs.map digitChar ++ u) = (fs, u) :=
    takeDigits_map_append fs u hf
      (fun c hc => (hcl c (head?_mem_of_eq _ _ hc)).2.2.2.1)
  have hdse : ds.isEmpty = false := by
    cases ds with
    | nil => exact absurd rfl hds
    | cons a as => rfl
  have hfse : fs.isEmpty = false := by
    cases fs with
    | nil => exact absurd rfl hfs
    | cons a as => rfl
  have hmabs : matchAbs (ds.map digitChar ++ ('.' :: (fs.map digitChar ++ u)))
      = some ((ds, fs), u) := by
    rw [matchAbs_eval_dot _ ds (fs.map digitChar ++ u) fs u hta hdse hta2 hfse]
    exact matchUnitPart_eval ds fs u (fun x hx => (hcl x hx).2.2.1) hmu
  exact parseSizeChars_abs _ ds fs u m (trimSpace_eq_self _ hnospace)
    (getLast?_ne_of_forall _ '%' hnopct) hupper hmabs hmm

lemma percBranch_no_unsupported (r : List Char) :
    percBranch r ≠ ParseResult.error ParseErr.unsupportedUnit := by
  rcases hpf : parseGoFloat r with _ | p
  · have hb : percBranch r = .error .invalidPercentage := by
      unfold percBranch
      rw [hpf]
    rw [hb]
    decide
  · have hb : percBranch r
        = if p.1 < 0 ∨ 100 * (10 : ℤ) ^ p.2 < p.1 then
            ParseResult.error ParseErr.percentOutOfRange
          else ParseResult.ok (Int.tdiv (-p.1) ((10 : ℤ) ^ p.2)) := by
      unfold percBranch
      rw [hpf]
    rw [hb]
    split_ifs <;> simp

lemma matchUnit_mult (cs u : List Char) (h : matchUnit cs = some u) :
    ∃ m, unitMultiplier u = some m := by
  cases cs with
  | nil =>
    simp only [matchUnit, Option.some.injEq] at h
    exact ⟨1, by rw [← h]; decide⟩
  | cons c cs' =>
    cases cs' with
    | nil =>
      simp only [matchUnit] at h
      split_ifs at h with hc
      · simp only [Option.some.injEq] at h
        subst h
        rcases hc with rfl | rfl | rfl | rfl | rfl
        · exact ⟨1, by decide⟩
        · exact ⟨1024, by decide⟩
        · exact ⟨1024 * 1024, by decide⟩
        · exact ⟨1024 * 1024 * 1024, by decide⟩
        · exact ⟨1024 * 1024 * 1024 * 1024, by decide⟩
    | cons b rest =>
      cases rest with
      | nil =>
        simp only [matchUnit] at h
        split_ifs at h with hc
        · simp only [Option.some.injEq] at h
          subst h
          obtain ⟨hc1, rfl⟩ := hc
          rcases hc1 with rfl | rfl | rfl | rfl
          · exact ⟨1024, by decide⟩
          · exact ⟨1024 * 1024, by decide⟩
          · exact ⟨1024 * 1024 * 1024, by decide⟩
          · exact ⟨1024 * 1024 * 1024 * 1024, by decide⟩
      | cons x xs =>
        simp only [matchUnit] at h
        exact Option.noConfusion h

lemma matchUnitPart_some (ds fs : List ℕ) (rr : List Char)
    (x : (List ℕ × List ℕ) × List Char)
    (h : matchUnitPart ds fs rr = some x) :
    matchUnit (rr.dropWhile isRegexSpace) = some x.2 := by
  unfold matchUnitPart at h
  rcases hm : matchUnit (rr.dropWhile isRegexSpace) with _ | w
  · rw [hm] at h
    exact absurd h (by simp)
  · rw [hm] at h
    simp only [Option.map_some', Option.some.injEq] at h
    have hx2 : x.2 = w := by rw [← h]
    rw [hx2]

lemma matchAbs_eval_empty (cs : List Char) (rest : List Char) (ds : List ℕ)
    (hta : takeDigits cs = (ds, rest)) (hne : ds.isEmpty = true) :
    matchAbs cs = none := by
  unfold matchAbs
  simp only [hta, hne, if_true]

lemma matchAbs_eval_dotEmpty (cs : List Char) (ds : List ℕ) (r2 : List Char)
    (fs : List ℕ) (rr : List Char) (hta : takeDigits cs = (ds, '.' :: r2))
    (hne : ds.isEmpty = false) (hta2 : takeDigits r2 = (fs, rr))
    (hfs : fs.isEmpty = true) :
    matchAbs cs = none := by
  unfold matchAbs
  simp only [hta, hne, Bool.false_eq_true, if_false, hta2, hfs, if_true]

lemma matchAbs_unit (cs : List Char) (r : (List ℕ × List ℕ) × List Char)
    (h : matchAbs cs = some r) : ∃ w, matchUnit w = some r.2 := by
  rcases hp : takeDigits cs with ⟨ds, rest⟩
  by_cases hne : ds.isEmpty
  · rw [matchAbs_eval_empty cs rest ds hp hne] at h
    exact absurd h (by simp)
  · have hne' : ds.isEmpty = false := by simpa using hne
    cases rest with
    | nil =>
      rw [matchAbs_eval_nil cs ds hp hne'] at h
      exact ⟨_, matchUnitPart_some ds [] [] r h⟩
    | cons c r2 =>
      by_cases hdot : c = '.'
      · subst hdot
        rcases hq : takeDigits r2 with ⟨fs, rr⟩
        by_cases hfse : fs.isEmpty
        · rw [matchAbs_eval_dotEmpty cs ds r2 fs rr hp hne' hq hfse] at h
          exact absurd h (by simp)
        · have hfse' : fs.isEmpty = false := by simpa using hfse
          rw [matchAbs_eval_dot cs ds r2 fs rr hp hne' hq hfse'] at h
          exact ⟨_, matchUnitPart_some ds fs rr r h⟩
      · rw [matchAbs_eval_nodot cs ds c r2 hp hne' hdot] at h
        exact ⟨_, matchUnitPart_some ds [] (c :: r2) r h⟩

/-! ### Claim C7 -/

/-- C7: the claim states that a valid absolute size parses to
round(number * multiplier).  The code instead converts with int64(), which
truncates toward zero: the valid input "1.5B" yields 1, while
round(1.5 * 1) = 2. -/
theorem C7_counterexample :
    parseSizeChars ('1' :: '.' :: '5' :: 'B' :: []) = .ok 1 ∧
    round ((15 / 10 : ℚ) * 1) = 2 ∧ (1 : ℤ) ≠ 2 := by
  refine ⟨by decide, ?_, by decide⟩
  norm_num [round_eq]

/-- C7 (amended): every absolute size string made of a non-empty digit
string, an optional dot-separated fraction, and a unit token from the
table with its binary (1024-based) multiplier parses to the truncation
toward zero of number * multiplier (int64 conversion), where the number is
the exact decimal value of the digits.  The examples of the claim hold:
"1GB" yields 1073741824 and "500MB" yields 524288000. -/
theorem C7_parse_amended (ds fs : List ℕ) (u : List Char) (m : ℤ)
    (hds : ds ≠ []) (hd : ∀ d ∈ ds, d < 10) (hf : ∀ d ∈ fs, d < 10)
    (hu : (u, m) ∈ unitTable) :
    parseSizeChars (ds.map digitChar
        ++ ((if fs.isEmpty then [] else '.' :: fs.map digitChar) ++ u))
      = .ok (Int.tdiv ((absNumberDec ds fs).1 * m)
          ((10 : ℤ) ^ (absNumberDec ds fs).2)) := by
  have htriple : matchUnit u = some u ∧ unitMultiplier u = some m ∧
      ∀ c ∈ u, isGoSpace c = false ∧ c.toUpper = c ∧ isRegexSpace c = false ∧
        c.isDigit = false ∧ c ≠ '%' ∧ c ≠ '.' := by
    simp only [unitTable, List.mem_cons, List.not_mem_nil, or_false] at hu
    rcases hu with h | h | h | h | h | h | h | h | h | h <;>
      (rw [Prod.mk.injEq] at h
       obtain ⟨rfl, rfl⟩ := h
       exact ⟨by decide, by decide, by decide⟩)
  obtain ⟨hmu, hmm, hcl⟩ := htriple
  cases fs with
  | nil =>
    simp only [List.isEmpty_nil, if_true, List.nil_append]
    exact parseAbs_core_nofrac ds u m hds hd hmu hmm hcl
  | cons f0 ftl =>
    simp only [List.isEmpty_cons, Bool.false_eq_true, if_false]
    exact parseAbs_core_frac ds (f0 :: ftl) u m hds (by simp) hd hf hmu hmm
      hcl

/-- C7 witness: "1.5KB" parses to 1536, and the claim's examples "1GB" and
"500MB" parse to 1073741824 and 524288000. -/
theorem C7_parse_amended_witness :
    (([1] : List ℕ) ≠ [] ∧ (∀ d ∈ ([1] : List ℕ), d < 10) ∧
      (∀ d ∈ ([5] : List ℕ), d < 10) ∧
      ((['K', 'B'], (1024 : ℤ)) ∈ unitTable)) ∧
    parseSizeChars ('1' :: '.' :: '5' :: 'K' :: 'B' :: []) = .ok 1536 ∧
    parseSizeChars ('1' :: 'G' :: 'B' :: []) = .ok 1073741824 ∧
    parseSizeChars ('5' :: '0' :: '0' :: 'M' :: 'B' :: []) = .ok 524288000
    := by
  refine ⟨⟨by decide, by decide, by decide, by decide⟩, ?_, by decide, by decide⟩
  have h := C7_parse_amended [1] [5] ['K', 'B'] 1024 (by decide) (by decide)
    (by decide) (by decide)
  have h2 : parseSizeChars ('1' :: '.' :: '5' :: 'K' :: 'B' :: [])
      = parseSizeChars ([1].map digitChar
        ++ ((if ([5] : List ℕ).isEmpty then []
              else '.' :: ([5] : List ℕ).map digitChar) ++ ['K', 'B'])) := by
    decide
  rw [h2, h]
  decide

/-! ### Claim C8 -/

/-- C8: the claim states that a percentage directive carries the parsed
float value.  The code encodes the percentage as int64(-percent), which
truncates the float toward zero: "80.5%" is accepted but the encoded value
is -80, so the percentage carried forward (the caller recovers it as
float64(-size)) is 80, not 80.5. -/
theorem C8_counterexample :
    parseSizeChars ('8' :: '0' :: '.' :: '5' :: '%' :: []) = .ok (-80) ∧
    (80 : ℚ) ≠ 805 / 10 := by
  refine ⟨by decide, ?_⟩
  norm_num

/-- C8 (amended): for every space-free input string ending in a percent
sign, the parser parses the remainder as a float: failure to parse yields
the invalid-percentage error, a value outside [0, 100] yields the
range error, and an in-range value p (an exact decimal mantissa/scale
pair) is accepted and encoded as the int64 truncation of -p, i.e. the
carried percentage is truncated to a whole number. -/
theorem C8_percentage_amended (cs : List Char)
    (h : ∀ c ∈ cs, isGoSpace c = false) :
    parseSizeChars (cs ++ ['%'])
      = match parseGoFloat cs with
        | none => .error .invalidPercentage
        | some p =>
          if p.1 < 0 ∨ 100 * (10 : ℤ) ^ p.2 < p.1 then
            .error .percentOutOfRange
          else .ok (Int.tdiv (-p.1) ((10 : ℤ) ^ p.2)) := by
  have hns : ∀ c ∈ cs ++ ['%'], isGoSpace c = false := by
    intro c hc
    rcases List.mem_append.mp hc with hc | hc
    · exact h c hc
    · simp only [List.mem_singleton] at hc
      subst hc
      decide
  simp only [parseSizeChars, trimSpace_eq_self _ hns, List.getLast?_concat]
  rw [if_pos trivial, List.dropLast_concat]
  rfl

/-- C8 witness: "80.5%" is in range and parses, carrying the truncated
value 80 (encoded as -80); "80%" carries 80; "120%" is out of range. -/
theorem C8_percentage_amended_witness :
    (∀ c ∈ ('8' :: '0' :: '.' :: '5' :: []), isGoSpace c = false) ∧
    parseSizeChars ('8' :: '0' :: '.' :: '5' :: '%' :: []) = .ok (-80) ∧
    parseSizeChars ('8' :: '0' :: '%' :: []) = .ok (-80) ∧
    parseSizeChars ('1' :: '2' :: '0' :: '%' :: [])
      = .error .percentOutOfRange := by
  refine ⟨by decide, ?_, by decide, by decide⟩
  have h := C8_percentage_amended ('8' :: '0' :: '.' :: '5' :: []) (by decide)
  have h2 : ('8' :: '0' :: '.' :: '5' :: []) ++ ['%']
      = ('8' :: '0' :: '.' :: '5' :: '%' :: []) := rfl
  rw [h2] at h
  rw [h]
  decide

/-! ### Claim C9 -/

/-- C9: the claim states that an unrecognized unit token such as in "10XB"
yields the unsupported-unit error, and that this error is actually
returned for some input.  It is not: the pattern only admits the
recognized unit tokens, so "10XB" fails the pattern match and yields the
invalid-size-format error instead. -/
theorem C9_counterexample :
    parseSizeChars ('1' :: '0' :: 'X' :: 'B' :: [])
      = .error .invalidSizeFormat ∧
    ParseErr.invalidSizeFormat ≠ ParseErr.unsupportedUnit := by decide

/-- C9 (amended): malformed non-percentage inputs fail with the
invalid-size-format error (e.g. "abc" and "10XB"), and the
unsupported-unit branch of the unit switch is unreachable: no input
whatsoever makes the parser return it, because the pattern's unit group
only matches the recognized tokens. -/
theorem C9_format_amended :
    (∀ cs : List Char, parseSizeChars cs ≠ .error .unsupportedUnit) ∧
    parseSizeChars ('a' :: 'b' :: 'c' :: []) = .error .invalidSizeFormat ∧
    parseSizeChars ('1' :: '0' :: 'X' :: 'B' :: [])
      = .error .invalidSizeFormat := by
  refine ⟨?_, by decide, by decide⟩
  intro cs
  simp only [parseSizeChars]
  by_cases hp : (trimSpace cs).getLast? = some '%'
  · rw [if_pos hp]
    exact percBranch_no_unsupported _
  · rw [if_neg hp]
    rcases hm : matchAbs ((trimSpace cs).map Char.toUpper) with _ | r
    · decide
    · obtain ⟨w, hw⟩ := matchAbs_unit _ r hm
      obtain ⟨mu, hmu⟩ := matchUnit_mult w r.2 hw
      dsimp only
      rw [hmu]
      simp
